import Mathlib

set_option maxRecDepth 8000

/-!
Verification development for the DSA knowledge-graph search and tutor engine
(source files: src/search_engine.py, src/tutor_engine.py, with the store built
by src/graph_builder.py from data/base_concepts.py).

Python strings are modelled as lists of characters (`Str`); Python dicts that
hold the knowledge graph are modelled as association lists preserving insertion
order, which is exactly the iteration order of a CPython dict.  Scores computed
by difflib are modelled as exact rationals; for the short strings handled here
the float comparisons performed by CPython agree with the exact rational
comparisons (two distinct ratios 2*M/L with small L differ by far more than one
double ulp, and rounding to double is monotone), so the rational model is
faithful.  Character case operations model the ASCII behaviour of str.lower /
str.strip, which covers every string occurring in the repository data.
-/

abbrev Str := List Char

/-- Character list of a string literal. -/
def chars (s : String) : Str := s.data

/-- Model of str.lower on ASCII text (charwise lowercasing). -/
def lowerStr (s : Str) : Str := s.map Char.toLower

/-- Whitespace characters stripped by Python str.strip (ASCII subset). -/
def pyIsSpace (c : Char) : Bool :=
  c = ' ' || c = '\t' || c = '\n' || c = '\r' || c = Char.ofNat 11 || c = Char.ofNat 12

/-- Model of str.strip(): drop leading and trailing whitespace. -/
def pyStrip (s : Str) : Str :=
  ((s.dropWhile pyIsSpace).reverse.dropWhile pyIsSpace).reverse

/-- Model of str.replace(old, new) for single characters. -/
def replaceChar (old new : Char) (s : Str) : Str :=
  s.map (fun c => if c = old then new else c)

/-- Model of one pass of t.replace of a double underscore by a single one:
left-to-right replacement of non-overlapping occurrences. -/
def replaceUU : Str → Str
  | [] => []
  | [c] => [c]
  | c :: d :: rest =>
    if c = '_' ∧ d = '_' then '_' :: replaceUU rest
    else c :: replaceUU (d :: rest)

/-- Test used by the while-loop guard in normalize_key: whether a double
underscore occurs in the text. -/
def hasUU : Str → Bool
  | [] => false
  | [_] => false
  | c :: d :: rest => (c = '_' && d = '_') || hasUU (d :: rest)

/-- Fuelled model of the while loop in normalize_key; every iteration with a
double underscore present strictly shortens the text, so fuel equal to the
length of the text always suffices for the loop to reach its exit condition. -/
def collapseFuel : Nat → Str → Str
  | 0, t => t
  | fuel + 1, t => if hasUU t then collapseFuel fuel (replaceUU t) else t

/-- Model of normalize_key from search_engine.py: strip, lowercase, turn each
of space, hyphen, slash into an underscore (three sequential replace calls),
then collapse repeated underscores by the while loop. -/
def normalize_key (s : Str) : Str :=
  let t := lowerStr (pyStrip s)
  let t := replaceChar ' ' '_' t
  let t := replaceChar '-' '_' t
  let t := replaceChar '/' '_' t
  collapseFuel t.length t

/-- Modelled from the spec: normalization described as trim, lowercase,
replace spaces, hyphens and slashes by underscores, and collapse every run of
repeated underscores to a single one (direct run-collapsing recursion, used to
compare against the replace-loop of the source). -/
def squashUU : Str → Str
  | [] => []
  | [c] => [c]
  | c :: d :: rest =>
    if c = '_' ∧ d = '_' then squashUU (d :: rest)
    else c :: squashUU (d :: rest)

/-- Spec-side normalization: like normalize_key but with direct run collapse. -/
def specNormalize (s : Str) : Str :=
  let t := lowerStr (pyStrip s)
  let t := replaceChar ' ' '_' t
  let t := replaceChar '-' '_' t
  let t := replaceChar '/' '_' t
  squashUU t

/-- Model of str.find for substrings: index of the leftmost occurrence of the
needle, none when absent.  An empty needle is found at index 0, as in Python. -/
def pyFindAux : Str → Str → Nat → Option Nat
  | hay, nd, i =>
    if nd.isPrefixOf hay then some i
    else
      match hay with
      | [] => none
      | _ :: t => pyFindAux t nd (i + 1)

/-- Leftmost-occurrence index of a substring (Python str.find, with none for
the -1 result). -/
def pyFind (hay nd : Str) : Option Nat := pyFindAux hay nd 0

/-- Model of the Python substring test q in s. -/
def strContains (hay nd : Str) : Bool := (pyFind hay nd).isSome

/-- Model of snippet(text, q, w) from search_engine.py, with Python slices
text[a:b] rendered as drop/take. -/
def snippet (text q : Str) (w : Nat) : Str :=
  if text = [] then []
  else
    match pyFind (lowerStr text) (lowerStr q) with
    | none => text.take (w * 2) ++ chars "..."
    | some idx =>
      let start := idx - w
      let stop := min text.length (idx + q.length + w)
      let s := (text.drop start).take (stop - start)
      let s := if 0 < start then chars "..." ++ s else s
      let s := if stop < text.length then s ++ chars "..." else s
      s

/-! Model of difflib.SequenceMatcher (no junk: the autojunk heuristic only
fires on strings of 200 characters or more, far beyond every string handled
here).  find_longest_match returns, among all longest common contiguous runs
of the two windows, the one whose start pair (i, j) is lexicographically
smallest; this is literally what the dynamic program of difflib computes,
since it only updates its best block on a strictly larger run length while
scanning i ascending and j ascending. -/

/-- Length of the common prefix run of two character lists. -/
def fwdRun : Str → Str → Nat
  | a :: as, b :: bs => if a = b then fwdRun as bs + 1 else 0
  | _, _ => 0

/-- All start pairs (i, j) with the length of the common run starting there,
listed in lexicographic order of (i, j). -/
def allRuns (a b : Str) : List (Nat × Nat × Nat) :=
  (List.range a.length).flatMap
    (fun i => (List.range b.length).map (fun j => (i, j, fwdRun (a.drop i) (b.drop j))))

/-- Length of the longest common contiguous run of the two lists. -/
def maxRun (a b : Str) : Nat :=
  ((allRuns a b).map (fun t => t.2.2)).foldr max 0

/-- Model of SequenceMatcher.find_longest_match on whole windows: the first
(in lexicographic (i, j) order) start of a longest common run. -/
def bestMatch (a b : Str) : Nat × Nat × Nat :=
  match (allRuns a b).find? (fun t => t.2.2 = maxRun a b) with
  | some t => t
  | none => (0, 0, 0)

/-- Fuelled model of get_matching_blocks restricted to the total matched size:
recursively split around the best block.  Each recursive call strictly
decreases the sum of the window lengths, so fuel one larger than that sum can
never run out. -/
def matchTotalF : Nat → Str → Str → Nat
  | 0, _, _ => 0
  | fuel + 1, a, b =>
    let t := bestMatch a b
    let i := t.1
    let j := t.2.1
    let k := t.2.2
    if k = 0 then 0
    else
      matchTotalF fuel (a.take i) (b.take j) + k +
        matchTotalF fuel (a.drop (i + k)) (b.drop (j + k))

/-- Total size of the matching blocks of SequenceMatcher. -/
def matchTotal (a b : Str) : Nat := matchTotalF (a.length + b.length + 1) a b

/-- Exact value of a nonnegative CPython float of the shape m / d with d > 0.
All scores handled by the program have this shape and are compared exactly, so
a fraction with explicit numerator and positive denominator is a faithful and
kernel-computable model; the mathematical value is recovered by `toQ`. -/
structure Frac where
  num : Nat
  den : Nat
  den_pos : 0 < den

/-- Rational value of a score. -/
def toQ (f : Frac) : ℚ := (f.num : ℚ) / (f.den : ℚ)

instance : DecidableEq Frac := fun p q =>
  decidable_of_iff (p.num = q.num ∧ p.den = q.den) (by cases p; cases q; simp)

/-- Exact comparison of two scores, by cross multiplication (sound because
denominators are positive). -/
def fracBLE (p q : Frac) : Bool := decide (p.num * q.den ≤ q.num * p.den)

/-- Model of SequenceMatcher.ratio(): 2*M / (len(a)+len(b)), and 1 when both
inputs are empty, as in difflib._calculate_ratio. -/
def pyRatio (a b : Str) : Frac :=
  if h : a.length + b.length = 0 then ⟨1, 1, Nat.one_pos⟩
  else ⟨2 * matchTotal a b, a.length + b.length, Nat.pos_of_ne_zero h⟩

/-- Multiset intersection size of the two character populations, as computed
by SequenceMatcher.quick_ratio. -/
def qrMatches (a b : Str) : Nat :=
  (a.dedup).foldr (fun c acc => acc + min (a.count c) (b.count c)) 0

/-- Upper-bound ratio used as the second gate of get_close_matches. -/
def quickRatio (a b : Str) : Frac :=
  if h : a.length + b.length = 0 then ⟨1, 1, Nat.one_pos⟩
  else ⟨2 * qrMatches a b, a.length + b.length, Nat.pos_of_ne_zero h⟩

/-- Upper-bound ratio used as the first gate of get_close_matches. -/
def realQuickRatio (a b : Str) : Frac :=
  if h : a.length + b.length = 0 then ⟨1, 1, Nat.one_pos⟩
  else ⟨2 * min a.length b.length, a.length + b.length, Nat.pos_of_ne_zero h⟩

/-- Model of similarity(a, b) from search_engine.py: 0 on an empty argument,
otherwise the ratio of the lowercased strings, in this argument order. -/
def similarity (a b : Str) : Frac :=
  if a = [] ∨ b = [] then ⟨0, 1, Nat.one_pos⟩
  else pyRatio (lowerStr a) (lowerStr b)

/-- Python string comparison (lexicographic on code points; a proper prefix is
smaller). -/
def pyStrLt : Str → Str → Bool
  | [], [] => false
  | [], _ :: _ => true
  | _ :: _, [] => false
  | a :: as, b :: bs => if a < b then true else if b < a then false else pyStrLt as bs

/-- Descending order on the pairs (score, string) compared by heapq.nlargest
inside get_close_matches: CPython compares such tuples lexicographically, so a
pair sorts before another when its score is larger, or the scores are equal
and its string is not smaller. -/
def tupGE (p q : Frac × Str) : Prop :=
  q.1.num * p.1.den < p.1.num * q.1.den ∨
    (p.1.num * q.1.den = q.1.num * p.1.den ∧ pyStrLt p.2 q.2 = false)

instance tupGE.decidableRel : DecidableRel tupGE := fun _ _ => by
  unfold tupGE; infer_instance

/-- Model of difflib.get_close_matches(word, possibilities, n, cutoff): keep
the candidates passing the three ratio gates, each paired with its ratio
against the word; sort the pairs in descending tuple order (heapq.nlargest is
documented as sorted(iterable, reverse=True)[:n], and a stable descending
sort coincides with insertion sort by `tupGE`); return the first n strings. -/
def get_close_matches (word : Str) (poss : List Str) (n : Nat) (cutoff : Frac) : List Str :=
  let result :=
    (poss.filter (fun x =>
      fracBLE cutoff (realQuickRatio x word) &&
      fracBLE cutoff (quickRatio x word) &&
      fracBLE cutoff (pyRatio x word))).map (fun x => (pyRatio x word, x))
  ((List.insertionSort tupGE result).take n).map Prod.snd

/-- Concept record: one JSON object of the knowledge-graph file.  The builder
(graph_builder.build_knowledge_graph) always writes every field, so the model
gives every record all fields and the .get defaults of the source never fire.
The oid field models CPython object identity of the dict holding the record:
every json.load call allocates fresh dicts, so records from different loads
have different oids even when all content fields agree. -/
structure Record where
  oid : Nat
  name : Str
  type_ : Str
  category : Str
  basic_ops : List Str
  principle : Str
  description : Str
  relations : List Str
  use_cases : List Str
  id : Str
deriving DecidableEq

/-- The knowledge graph: an association list in dict insertion order. -/
abbrev Graph := List (Str × Record)

/-- Model of dict.get(key): leftmost binding, none when absent. -/
def alist_get (g : Graph) (k : Str) : Option Record :=
  (g.find? (fun kv => decide (kv.1 = k))).map (fun kv => kv.2)

/-- The list self.concept_keys of KnowledgeGraphSearch.__init__. -/
def concept_keys (g : Graph) : List Str := g.map (fun kv => kv.1)

/-- Model of KnowledgeGraphSearch.exact_search: dictionary lookup of the
normalized query, nothing else. -/
def exact_search (g : Graph) (q : Str) : Option Record :=
  alist_get g (normalize_key q)

/-- One value of the mapping returned by fuzzy_search. -/
structure FuzzyEntry where
  name : Str
  type_ : Str
  match_score : Frac
deriving DecidableEq

/-- Model of KnowledgeGraphSearch.fuzzy_search: candidates from
get_close_matches on the normalized query over the store keys, each reported
with a score recomputed by similarity(norm, k) — the argument order opposite
to the ratio(k, norm) used for candidate selection.  Every candidate is a
store key, so the graph[k] indexing of the source never fails and is rendered
as filterMap over the lookup. -/
def fuzzy_search (g : Graph) (q : Str) (limit : Nat) (cutoff : Frac) :
    List (Str × FuzzyEntry) :=
  let norm := normalize_key q
  let close := get_close_matches norm (concept_keys g) limit cutoff
  close.filterMap (fun k =>
    (alist_get g k).map (fun d => (k, ⟨d.name, d.type_, similarity norm k⟩)))

/-- One value of the mapping returned by relation_search. -/
structure RelEntry where
  name : Str
  category : Str
deriving DecidableEq

/-- Model of KnowledgeGraphSearch.relation_search: keep every record whose
lowercased relation list contains the lowercased query. -/
def relation_search (g : Graph) (rel : Str) : List (Str × RelEntry) :=
  let r := lowerStr rel
  g.filterMap (fun kv =>
    if r ∈ kv.2.relations.map lowerStr then some (kv.1, ⟨kv.2.name, kv.2.category⟩)
    else none)

/-- One value of the mapping returned by keyword_search. -/
structure KeywordEntry where
  name : Str
  snippet : Str
deriving DecidableEq

/-- Model of KnowledgeGraphSearch.keyword_search: keep every record such that
the lowercased query occurs in the lowercased concatenation of name and
description, reporting a snippet of the description. -/
def keyword_search (g : Graph) (q : Str) : List (Str × KeywordEntry) :=
  let ql := lowerStr q
  g.filterMap (fun kv =>
    if strContains (lowerStr (kv.2.name ++ kv.2.description)) ql then
      some (kv.1, ⟨kv.2.name, snippet kv.2.description q 60⟩)
    else none)

/-- The composite result of KnowledgeGraphSearch.comprehensive_search. -/
structure Composite where
  exact : Option Record
  fuzzy : List (Str × FuzzyEntry)
  related : List (Str × RelEntry)
  keyword : List (Str × KeywordEntry)
deriving DecidableEq

/-- Model of KnowledgeGraphSearch.comprehensive_search: the four strategies on
the same raw query, fuzzy with its default limit 5 and cutoff 0.6. -/
def comprehensive_search (g : Graph) (q : Str) : Composite :=
  ⟨exact_search g q, fuzzy_search g q 5 ⟨3, 5, by decide⟩,
    relation_search g q, keyword_search g q⟩

/-! Model of tutor_engine.py.  DsaTutorEngine.__init__ loads the graph file
twice: once into self.kg and once more inside KnowledgeGraphSearch for
self.engine.graph.  The two copies are equal field by field but consist of
distinct freshly allocated dicts, which the record oids make explicit. -/

/-- The result dictionary returned by explain_concept and answer. -/
structure TutorResult where
  query : Str
  matched_key : Option Str
  match_source : Str
  concept : Option Record
  answer_markdown : Str
deriving DecidableEq

/-- Tutor state: self.kg and the graph held by self.engine. -/
structure Tutor where
  kg : Graph
  engine : Graph

/-- Fresh-allocation model of one json.load: the records of a parsed file get
consecutive object identities starting at the given base. -/
def retag : Nat → Graph → Graph
  | _, [] => []
  | b, (k, r) :: rest => (k, { r with oid := b }) :: retag (b + 1) rest

/-- Model of DsaTutorEngine.__init__ on a graph file: two independent loads of
the same file, hence equal contents with disjoint object identities. -/
def mkTutor (file : Graph) : Tutor :=
  ⟨retag 0 file, retag file.length file⟩

/-- Message of explain_concept for an empty concept name. -/
def pleaseProvideMsg : Str := chars "Please provide a non-empty concept name."

/-- Message of explain_concept when no strategy yielded a concept. -/
def notFoundMsg (query : Str) : Str :=
  chars "I couldn\x27t find a clear match for **" ++ query ++
    chars "** in the knowledge graph."

/-- Message of answer for an empty question. -/
def pleaseTypeMsg : Str := chars "Please type a question or a concept name."

/-- Message of the generic branch of answer when nothing matched. -/
def notMappedMsg : Str :=
  chars "I couldn\x27t map your question to a specific concept in the knowledge graph.\n\nTry asking something like:\n- `Explain stack`\n- `What is binary search?`\n- `Define adjacency list`\n"

/-- Model of str.split(): maximal runs of non-whitespace characters. -/
def pyWords (s : Str) : List Str :=
  (s.splitOnP pyIsSpace).filter (fun w => decide (w ≠ []))

/-- Greedy line filling over a word list: a word joins the current line when
the line stays within the width, otherwise it starts a new line. -/
def fillAux (width : Nat) : Str → List Str → Str
  | line, [] => line
  | line, w :: ws =>
    if line.length + 1 + w.length ≤ width then fillAux width (line ++ ' ' :: w) ws
    else line ++ '\n' :: fillAux width w ws

/-- Model of textwrap.fill(text, width) on this data: whitespace is collapsed
and words are packed greedily into lines of at most the given width.  Every
description word of the store is far shorter than the width, so the
break_long_words handling of textwrap never fires. -/
def pyFill (s : Str) (width : Nat) : Str :=
  match pyWords s with
  | [] => []
  | w :: ws => fillAux width w ws

/-- Comma join used for the operation, use-case and relation lists. -/
def joinComma (xs : List Str) : Str := List.intercalate (chars ", ") xs

/-- Backquoted item of a markdown list. -/
def backquote (x : Str) : Str := chars "`" ++ x ++ chars "`"

/-- Model of DsaTutorEngine._build_concept_explanation for an actual record
(the guard for a falsy concept never fires: pick only ever hands over a
non-empty dict). -/
def buildConceptExplanation (concept : Record) : Str :=
  let desc := pyStrip concept.description
  let lines : List Str :=
    [chars "### 📘 " ++ concept.name,
     [],
     chars "- **Type:** " ++ backquote concept.type_,
     chars "- **Category:** " ++ backquote concept.category] ++
    (if concept.basic_ops ≠ [] then
      [chars "- **Core operations:** " ++ joinComma (concept.basic_ops.map backquote)]
     else []) ++
    (if concept.use_cases ≠ [] then
      [chars "- **Typical use cases:** " ++ joinComma (concept.use_cases.map backquote)]
     else []) ++
    (if concept.relations ≠ [] then
      [chars "- **Relations / tags:** " ++ joinComma (concept.relations.map backquote)]
     else []) ++
    (if desc ≠ [] then
      [[], chars "#### 📖 Explanation", pyFill desc 90]
     else [])
  List.intercalate (chars "\n") lines

/-- Model of DsaTutorEngine._study_tip_for_category. -/
def study_tip (category : Str) : Option Str :=
  let c := lowerStr category
  if c = chars "data_structure" then
    some (chars "💡 **Study tip:** For data structures, practice implementing the core operations (insert, delete, search) and analyse their time complexity.")
  else if c = chars "algorithm" then
    some (chars "💡 **Study tip:** For algorithms, make sure you understand both the step-by-step procedure *and* the Big-O complexity. Trace small examples by hand.")
  else none

/-- Stable descending comparison by match_score used on the fuzzy mapping by
_pick_best_concept_from_results (Python sorted with reverse=True is stable, as
is insertion sort with this non-strict relation). -/
def scoreGE (p q : Str × FuzzyEntry) : Prop :=
  fracBLE q.2.match_score p.2.match_score = true

instance scoreGE.decidableRel : DecidableRel scoreGE := fun _ _ => by
  unfold scoreGE; infer_instance

/-- Model of DsaTutorEngine._pick_best_concept_from_results: exact hit first;
else the best-scoring fuzzy key looked up in self.kg; else the first keyword
key looked up in self.kg; relation results are never consulted. -/
def pick (t : Tutor) (results : Composite) : Option Record :=
  if results.exact.isSome then results.exact
  else
    match List.insertionSort scoreGE results.fuzzy with
    | b :: _ => alist_get t.kg b.1
    | [] =>
      match results.keyword with
      | kv :: _ => alist_get t.kg kv.1
      | [] => none

/-- Model of the Python identity test results.get("exact") is concept. -/
def isExact (e : Option Record) (c : Record) : Bool :=
  match e with
  | some r => decide (r.oid = c.oid)
  | none => false

/-- Model of DsaTutorEngine.explain_concept. -/
def explain_concept (t : Tutor) (concept_name : Str) : TutorResult :=
  let query := pyStrip concept_name
  if query = [] then
    ⟨concept_name, none, chars "none", none, pleaseProvideMsg⟩
  else
    let results := comprehensive_search t.engine query
    match pick t results with
    | none => ⟨query, none, chars "none", none, notFoundMsg query⟩
    | some concept =>
      let matched_key := (t.kg.find? (fun kv => decide (kv.2.oid = concept.oid))).map (fun kv => kv.1)
      let answer0 := buildConceptExplanation concept
      let answer1 :=
        match study_tip concept.category with
        | some tip => answer0 ++ chars "\n\n" ++ tip
        | none => answer0
      let src :=
        if isExact results.exact concept then chars "exact"
        else
          match matched_key with
          | some mk =>
            if mk ≠ [] ∧ (results.fuzzy.find? (fun kv => decide (kv.1 = mk))).isSome then
              chars "fuzzy"
            else chars "keyword"
          | none => chars "keyword"
      ⟨query, matched_key, src, some concept, answer1⟩

/-- The three recognized question openers of DsaTutorEngine.answer, in the
order the source tries them. -/
def questionOpeners : List Str :=
  [chars "explain ", chars "what is ", chars "define "]

/-- First recognized opener of the lowercased query, none when the query
starts with none of them. -/
def firstOpener (lowered : Str) : Option Str :=
  questionOpeners.find? (fun p => p.isPrefixOf lowered)

/-- Generic branch of DsaTutorEngine.answer: search the full cleaned query,
pick a concept, and re-enter explain_concept on its display name. -/
def answerGeneric (t : Tutor) (query_clean : Str) : TutorResult :=
  let results := comprehensive_search t.engine query_clean
  match pick t results with
  | none => ⟨query_clean, none, chars "none", none, notMappedMsg⟩
  | some concept => explain_concept t concept.name

/-- Model of DsaTutorEngine.answer. -/
def answer (t : Tutor) (user_query : Str) : TutorResult :=
  let query_clean := pyStrip user_query
  if query_clean = [] then
    ⟨user_query, none, chars "none", none, pleaseTypeMsg⟩
  else
    match firstOpener (lowerStr query_clean) with
    | some p => explain_concept t (pyStrip (query_clean.drop p.length))
    | none => answerGeneric t query_clean

/-! Demonstration stores used by witnesses and counterexamples.  The stack
record is the one built by graph_builder from data/base_concepts.py (relations
and use cases exactly as generate_auto_relations / generate_use_cases emit
them, description as in the non-enriched build). -/

/-- The stack record of the built knowledge graph. -/
def stackRec : Record :=
  ⟨0, chars "Stack", chars "linear_structure", chars "data_structure",
    [chars "push", chars "pop", chars "top", chars "is_empty"],
    chars "LIFO (Last-In-First-Out)",
    chars "A linear structure supporting LIFO access.",
    [chars "data_structure", chars "lifo_structure", chars "recursion_support"],
    [chars "function_call_stack", chars "undo_operations"],
    chars "dsa_stack"⟩

/-- One-record demonstration file. -/
def stackFile : Graph := [(chars "stack", stackRec)]

/-- Record with name Array and a description not containing the word array,
as in data/base_concepts.py. -/
def arrayRec : Record :=
  ⟨0, chars "Array", chars "linear_structure", chars "data_structure",
    [chars "access", chars "update", chars "insert", chars "delete"],
    chars "Contiguous memory block",
    chars "Contiguous memory block.",
    [chars "data_structure", chars "linear_structure", chars "sequential_access"],
    [chars "general_dsa_application"],
    chars "dsa_array"⟩

/-- Store exhibiting a candidate whose reported fuzzy score falls below the
cutoff (the prefilter score of the key ab against the query bacb is 2/3, the
reported score is 1/3). -/
def fracStore : Graph := [(chars "ab", arrayRec)]

/-- Breadth-first-search record of the built knowledge graph. -/
def bfsRec : Record :=
  ⟨0, chars "Breadth-First Search", chars "graph_algorithm", chars "algorithm",
    [chars "enqueue", chars "visit"],
    chars "Level-order exploration.",
    chars "Graph traversal visiting nodes in breadth-first order.",
    [chars "algorithm", chars "graph_traversal"],
    [chars "general_dsa_application"],
    chars "dsa_bfs"⟩

/-- Depth-first-search record of the built knowledge graph. -/
def dfsRec : Record :=
  ⟨0, chars "Depth-First Search", chars "graph_algorithm", chars "algorithm",
    [chars "push", chars "visit"],
    chars "Explore depth first.",
    chars "Graph traversal exploring depth-first paths.",
    [chars "algorithm", chars "graph_traversal"],
    [chars "general_dsa_application"],
    chars "dsa_dfs"⟩

/-- Two-record store in the insertion order of base_concepts (bfs before
dfs). -/
def bfsDfsStore : Graph := [(chars "bfs", bfsRec), (chars "dfs", dfsRec)]

/-- Store for the keyword counterexample. -/
def arrayStore : Graph := [(chars "array", arrayRec)]

/-- Position of a key in store order. -/
def storeIndex (g : Graph) (k : Str) : Nat :=
  (concept_keys g).findIdx (fun x => decide (x = k))

/-- Exact comparisons of scores as propositions (cross multiplication with
positive denominators; fracLE_iff_toQ and friends below identify them with
the comparisons of the rational values). -/
abbrev fracLE (p q : Frac) : Prop := p.num * q.den ≤ q.num * p.den

/-- Strict exact comparison of scores. -/
abbrev fracLT (p q : Frac) : Prop := p.num * q.den < q.num * p.den

/-- Exact equality of score values. -/
abbrev fracEQ (p q : Frac) : Prop := p.num * q.den = q.num * p.den

/-- Statement of claim C1 at one store, query, limit and cutoff: at most
limit entries, every reported match_score at least the cutoff, and the
entries in descending match_score order with ties in store order. -/
abbrev fuzzyClaim (g : Graph) (q : Str) (limit : Nat) (cutoff : Frac) : Prop :=
  let res := fuzzy_search g q limit cutoff
  res.length ≤ limit ∧
  (∀ p ∈ res, fracLE cutoff p.2.match_score) ∧
  res.Pairwise (fun a b =>
    fracLT b.2.match_score a.2.match_score ∨
      (fracEQ a.2.match_score b.2.match_score ∧ storeIndex g a.1 ≤ storeIndex g b.1))

/-- Statement of claim C9 at one store: all four strategies empty on the
empty query. -/
abbrev emptyQueryClaim (g : Graph) : Prop :=
  exact_search g [] = none ∧
  fuzzy_search g [] 5 ⟨3, 5, by decide⟩ = [] ∧
  relation_search g [] = [] ∧
  keyword_search g [] = []

/-- Statement of claim C4 at one store and query: a record is reported iff
the lowercased query occurs in the lowercased name-description concatenation,
and every reported snippet contains the query (case-insensitively) unless the
description is shorter than the 120-character snippet window, in which case
the snippet is the whole description. -/
abbrev keywordClaim (g : Graph) (q : Str) : Prop :=
  (∀ kv ∈ g, ((kv.1 ∈ (keyword_search g q).map Prod.fst) ↔
      strContains (lowerStr (kv.2.name ++ kv.2.description)) (lowerStr q) = true)) ∧
  (∀ kv ∈ g, ∀ p ∈ keyword_search g q, p.1 = kv.1 →
    (strContains (lowerStr p.2.snippet) (lowerStr q) = true ∨
      (kv.2.description.length < 120 ∧ p.2.snippet = kv.2.description)))

/-! Equivalence of the replace-until-fixpoint underscore collapse of the
source with the direct run collapse described by the spec. -/

theorem squashUU_of_hasUU_false : ∀ l : Str, hasUU l = false → squashUU l = l := by
  intro l
  induction l with
  | nil => intro _; rfl
  | cons c t ih =>
    cases t with
    | nil => intro _; rfl
    | cons d rest =>
      intro h
      simp only [hasUU, Bool.or_eq_false_iff, Bool.and_eq_false_iff,
        decide_eq_false_iff_not] at h
      simp only [squashUU]
      rw [if_neg, ih h.2]
      rintro ⟨hc, hd⟩
      rcases h.1 with h1 | h1
      · exact h1 hc
      · exact h1 hd

theorem replaceUU_length_le : ∀ l : Str, (replaceUU l).length ≤ l.length := by
  intro l
  induction l using replaceUU.induct with
  | case1 => simp [replaceUU]
  | case2 c => simp [replaceUU]
  | case3 c d rest h ih =>
    simp only [replaceUU, if_pos h, List.length_cons]
    omega
  | case4 c d rest h ih =>
    simp only [replaceUU, if_neg h, List.length_cons] at ih ⊢
    omega

theorem replaceUU_length_lt : ∀ l : Str, hasUU l = true → (replaceUU l).length < l.length := by
  intro l
  induction l using replaceUU.induct with
  | case1 => intro h; cases h
  | case2 c => intro h; cases h
  | case3 c d rest h ih =>
    intro _
    simp only [replaceUU, if_pos h, List.length_cons]
    have := replaceUU_length_le rest
    omega
  | case4 c d rest h ih =>
    intro hu
    simp only [hasUU, Bool.or_eq_true] at hu
    rcases hu with hu | hu
    · refine absurd ?_ h
      simpa [Bool.and_eq_true, decide_eq_true_eq] using hu
    · simp only [replaceUU, if_neg h, List.length_cons] at ih ⊢
      have := ih hu
      omega

theorem squashUU_cons_of_ne (c : Char) (l : Str) (hc : c ≠ '_') :
    squashUU (c :: l) = c :: squashUU l := by
  cases l with
  | nil => rfl
  | cons d rest =>
    simp only [squashUU]
    rw [if_neg]
    rintro ⟨h1, _⟩
    exact hc h1

theorem squashUU_replaceUU_aux : ∀ (n : Nat) (l : Str), l.length ≤ n →
    squashUU (replaceUU l) = squashUU l ∧
      squashUU ('_' :: replaceUU l) = squashUU ('_' :: l) := by
  intro n
  induction n with
  | zero =>
    intro l hl
    have : l = [] := List.length_eq_zero.mp (Nat.le_zero.mp hl)
    subst this
    exact ⟨rfl, rfl⟩
  | succ n ih =>
    intro l hl
    match l with
    | [] => exact ⟨rfl, rfl⟩
    | [c] => exact ⟨rfl, rfl⟩
    | c :: d :: rest =>
      have hrest : rest.length ≤ n := by
        simp only [List.length_cons] at hl; omega
      have hdrest : (d :: rest).length ≤ n := by
        simp only [List.length_cons] at hl ⊢; omega
      by_cases huu : c = '_' ∧ d = '_'
      · obtain ⟨hc, hd⟩ := huu
        subst hc; subst hd
        have hq := (ih rest hrest).2
        constructor
        · calc squashUU (replaceUU ('_' :: '_' :: rest))
              = squashUU ('_' :: replaceUU rest) := by
                simp [replaceUU]
            _ = squashUU ('_' :: rest) := hq
            _ = squashUU ('_' :: '_' :: rest) := by simp [squashUU]
        · calc squashUU ('_' :: replaceUU ('_' :: '_' :: rest))
              = squashUU ('_' :: '_' :: replaceUU rest) := by
                simp [replaceUU]
            _ = squashUU ('_' :: replaceUU rest) := by simp [squashUU]
            _ = squashUU ('_' :: rest) := hq
            _ = squashUU ('_' :: '_' :: rest) := by simp [squashUU]
      · have hrepl : replaceUU (c :: d :: rest) = c :: replaceUU (d :: rest) := by
          simp [replaceUU, huu]
        have hp := (ih (d :: rest) hdrest).1
        have hq := (ih (d :: rest) hdrest).2
        by_cases hc : c = '_'
        · subst hc
          have hd : d ≠ '_' := fun hd => huu ⟨rfl, hd⟩
          constructor
          · rw [hrepl]
            exact hq
          · rw [hrepl]
            have h1 : squashUU ('_' :: '_' :: replaceUU (d :: rest))
                = squashUU ('_' :: replaceUU (d :: rest)) := by simp [squashUU]
            have h2 : squashUU ('_' :: '_' :: d :: rest)
                = squashUU ('_' :: d :: rest) := by simp [squashUU]
            rw [h1, h2]
            exact hq
        · constructor
          · rw [hrepl, squashUU_cons_of_ne c _ hc, squashUU_cons_of_ne c _ hc, hp]
          · rw [hrepl]
            have h1 : squashUU ('_' :: c :: replaceUU (d :: rest))
                = '_' :: squashUU (c :: replaceUU (d :: rest)) := by
              simp only [squashUU]
              rw [if_neg]
              rintro ⟨_, h2⟩
              exact hc h2
            have h2 : squashUU ('_' :: c :: d :: rest)
                = '_' :: squashUU (c :: d :: rest) := by
              simp only [squashUU]
              rw [if_neg]
              rintro ⟨_, h3⟩
              exact hc h3
            rw [h1, h2, squashUU_cons_of_ne c _ hc, squashUU_cons_of_ne c _ hc, hp]

theorem collapseFuel_eq_squashUU : ∀ (f : Nat) (l : Str), l.length ≤ f →
    collapseFuel f l = squashUU l := by
  intro f
  induction f with
  | zero =>
    intro l hl
    have : l = [] := List.length_eq_zero.mp (Nat.le_zero.mp hl)
    subst this
    rfl
  | succ f ih =>
    intro l hl
    by_cases h : hasUU l = true
    · have hlt := replaceUU_length_lt l h
      have : (replaceUU l).length ≤ f := by omega
      calc collapseFuel (f + 1) l = collapseFuel f (replaceUU l) := by
            simp [collapseFuel, h]
        _ = squashUU (replaceUU l) := ih _ this
        _ = squashUU l := (squashUU_replaceUU_aux l.length l le_rfl).1
    · have h0 : hasUU l = false := by
        cases hu : hasUU l
        · rfl
        · exact absurd hu h
      simp [collapseFuel, h0, squashUU_of_hasUU_false l h0]

/-- The normalization of the source coincides with the normalization the spec
describes: the replace-until-no-double-underscore loop collapses every run of
underscores to a single underscore. -/
theorem normalize_key_eq_specNormalize (s : Str) :
    normalize_key s = specNormalize s := by
  unfold normalize_key specNormalize
  exact collapseFuel_eq_squashUU _ _ le_rfl

/-! Characterization of the substring search and of the snippet contract. -/

theorem pyFindAux_some : ∀ (hay nd : Str) (i j : Nat),
    pyFindAux hay nd i = some j →
    i ≤ j ∧ j - i ≤ hay.length ∧ nd <+: hay.drop (j - i) := by
  intro hay
  induction hay with
  | nil =>
    intro nd i j h
    unfold pyFindAux at h
    by_cases hp : nd.isPrefixOf ([] : Str)
    · rw [if_pos hp] at h
      cases h
      refine ⟨le_rfl, by simp, ?_⟩
      simpa using List.isPrefixOf_iff_prefix.mp hp
    · rw [if_neg hp] at h
      cases h
  | cons c t ih =>
    intro nd i j h
    unfold pyFindAux at h
    by_cases hp : nd.isPrefixOf (c :: t)
    · rw [if_pos hp] at h
      cases h
      refine ⟨le_rfl, by simp, ?_⟩
      simpa using List.isPrefixOf_iff_prefix.mp hp
    · rw [if_neg hp] at h
      obtain ⟨h1, h2, h3⟩ := ih nd (i + 1) j h
      refine ⟨by omega, by simp only [List.length_cons]; omega, ?_⟩
      have hji : j - i = (j - (i + 1)) + 1 := by omega
      rw [hji]
      simpa using h3

theorem pyFindAux_isSome_of_prefix_at : ∀ (hay nd : Str) (m i : Nat),
    nd <+: hay.drop m → (pyFindAux hay nd i).isSome = true := by
  intro hay
  induction hay with
  | nil =>
    intro nd m i h
    simp only [List.drop_nil] at h
    have : nd = [] := List.prefix_nil.mp h
    subst this
    unfold pyFindAux
    rw [if_pos (by simp [List.isPrefixOf_iff_prefix])]
    rfl
  | cons c t ih =>
    intro nd m i h
    unfold pyFindAux
    by_cases hp : nd.isPrefixOf (c :: t)
    · rw [if_pos hp]; rfl
    · rw [if_neg hp]
      cases m with
      | zero =>
        simp only [List.drop_zero] at h
        exact absurd (List.isPrefixOf_iff_prefix.mpr h) hp
      | succ m =>
        simp only [List.drop_succ_cons] at h
        exact ih nd m (i + 1) h

theorem strContains_iff_isInfix (hay nd : Str) :
    strContains hay nd = true ↔ nd <:+: hay := by
  constructor
  · intro h
    unfold strContains pyFind at h
    obtain ⟨j, hj⟩ := Option.isSome_iff_exists.mp h
    obtain ⟨_, _, hpre⟩ := pyFindAux_some hay nd 0 j hj
    exact List.infix_iff_prefix_suffix.mpr ⟨hay.drop (j - 0), hpre, List.drop_suffix _ _⟩
  · rintro ⟨s, t, rfl⟩
    unfold strContains pyFind
    apply pyFindAux_isSome_of_prefix_at _ _ s.length
    rw [List.append_assoc, List.drop_left]
    exact ⟨t, rfl⟩

theorem infix_append_sides (l m x y : Str) (h : l <:+: m) : l <:+: x ++ m ++ y := by
  obtain ⟨s, t, rfl⟩ := h
  exact ⟨x ++ s, t ++ y, by simp⟩

theorem prefix_drop_infix_take (nd l : Str) (m n : Nat)
    (h : nd <+: l.drop m) (hlen : m + nd.length ≤ n) : nd <:+: l.take n := by
  have h1 : nd <+: (l.take n).drop m := by
    rw [List.drop_take]
    rw [List.prefix_take_iff]
    exact ⟨h, by omega⟩
  exact List.infix_iff_prefix_suffix.mpr ⟨(l.take n).drop m, h1, List.drop_suffix _ _⟩

theorem snippet_contains_of_found (text q : Str) (w idx : Nat)
    (h : pyFind (lowerStr text) (lowerStr q) = some idx) :
    strContains (lowerStr (snippet text q w)) (lowerStr q) = true := by
  by_cases htext : text = []
  · subst htext
    obtain ⟨_, _, hpre⟩ := pyFindAux_some _ _ 0 idx h
    simp only [lowerStr, List.map_nil, List.drop_nil] at hpre
    have hq : lowerStr q = [] := List.prefix_nil.mp hpre
    rw [snippet, if_pos rfl]
    rw [strContains_iff_isInfix, hq]
    exact List.nil_infix
  · obtain ⟨_, hle, hpre⟩ := pyFindAux_some _ _ 0 idx h
    simp only [Nat.sub_zero] at hle hpre
    have hlenT : (lowerStr text).length = text.length := by simp [lowerStr]
    have hlenq : (lowerStr q).length = q.length := by simp [lowerStr]
    have hfit : idx + q.length ≤ text.length := by
      have := hpre.length_le
      simp only [List.length_drop, hlenT, hlenq] at this ⊢
      omega
    rw [snippet, if_neg htext, h]
    simp only
    set start := idx - w with hstart
    set stop := min text.length (idx + q.length + w) with hstop
    have hstart_le : start ≤ idx := by omega
    have hstop_ge : idx + q.length ≤ stop := by omega
    have hmid : lowerStr q <:+: lowerStr ((text.drop start).take (stop - start)) := by
      have hmap : lowerStr ((text.drop start).take (stop - start))
          = ((lowerStr text).drop start).take (stop - start) := by
        simp [lowerStr, List.map_take, List.map_drop]
      rw [hmap]
      apply prefix_drop_infix_take _ _ (idx - start) (stop - start)
      · have : ((lowerStr text).drop start).drop (idx - start)
            = (lowerStr text).drop idx := by
          rw [List.drop_drop]
          congr 1
          omega
        rw [this]
        exact hpre
      · simp only [hlenq]
        omega
    rcases h1 : decide (0 < start) with _ | _ <;>
      rcases h2 : decide (stop < text.length) with _ | _ <;>
      simp only [decide_eq_true_eq, decide_eq_false_iff_not] at h1 h2 <;>
      [skip; skip; skip; skip] <;>
      first
      | (rw [if_neg h1, if_neg h2]
         rw [strContains_iff_isInfix]
         exact hmid)
      | (rw [if_neg h1, if_pos h2]
         rw [strContains_iff_isInfix]
         simpa [lowerStr] using
           infix_append_sides _ _ [] (lowerStr (chars "...")) (by simpa [lowerStr] using hmid))
      | (rw [if_pos h1, if_neg h2]
         rw [strContains_iff_isInfix]
         simpa [lowerStr] using
           infix_append_sides _ _ (lowerStr (chars "...")) [] (by simpa [lowerStr] using hmid))
      | (rw [if_pos h1, if_pos h2]
         rw [strContains_iff_isInfix]
         simpa [lowerStr] using
           infix_append_sides _ _ (lowerStr (chars "...")) (lowerStr (chars "..."))
             (by simpa [lowerStr] using hmid))

theorem snippet_eq_text_of_fits (text q : Str) (w idx : Nat)
    (h : pyFind (lowerStr text) (lowerStr q) = some idx)
    (hw : idx ≤ w) (hfits : text.length ≤ idx + q.length + w) :
    snippet text q w = text := by
  by_cases htext : text = []
  · subst htext; rfl
  · rw [snippet, if_neg htext, h]
    simp only
    have hstart : idx - w = 0 := by omega
    have hstop : min text.length (idx + q.length + w) = text.length :=
      min_eq_left hfits
    rw [hstart, hstop]
    simp

theorem snippet_of_not_found (text q : Str) (w : Nat)
    (htext : text ≠ [])
    (h : pyFind (lowerStr text) (lowerStr q) = none) :
    snippet text q w = text.take (w * 2) ++ chars "..." := by
  rw [snippet, if_neg htext, h]

/-! Characterization of keyword_search membership. -/

theorem pair_eq_of_nodup_keys : ∀ (g : Graph),
    (concept_keys g).Nodup → ∀ a ∈ g, ∀ b ∈ g, a.1 = b.1 → a = b := by
  intro g
  induction g with
  | nil => intro _ a ha; cases ha
  | cons kv rest ih =>
    intro hnd a ha b hb hab
    simp only [concept_keys, List.map_cons, List.nodup_cons] at hnd
    obtain ⟨hhead, htail⟩ := hnd
    rcases List.mem_cons.mp ha with ha1 | ha1 <;>
      rcases List.mem_cons.mp hb with hb1 | hb1
    · rw [ha1, hb1]
    · exfalso
      apply hhead
      subst ha1
      exact List.mem_map.mpr ⟨b, hb1, hab.symm⟩
    · exfalso
      apply hhead
      subst hb1
      exact List.mem_map.mpr ⟨a, ha1, hab⟩
    · exact ih htail a ha1 b hb1 hab

theorem mem_keyword_search (g : Graph) (q : Str) (p : Str × KeywordEntry) :
    p ∈ keyword_search g q ↔
      ∃ kv ∈ g, strContains (lowerStr (kv.2.name ++ kv.2.description)) (lowerStr q) = true ∧
        p = (kv.1, ⟨kv.2.name, snippet kv.2.description q 60⟩) := by
  unfold keyword_search
  rw [List.mem_filterMap]
  constructor
  · rintro ⟨kv, hmem, hf⟩
    by_cases hc : strContains (lowerStr (kv.2.name ++ kv.2.description)) (lowerStr q) = true
    · rw [if_pos hc] at hf
      cases hf
      exact ⟨kv, hmem, hc, rfl⟩
    · rw [if_neg hc] at hf
      cases hf
  · rintro ⟨kv, hmem, hc, rfl⟩
    exact ⟨kv, hmem, by rw [if_pos hc]⟩

theorem keyword_search_mem_iff (g : Graph) (q : Str)
    (hnd : (concept_keys g).Nodup) (kv : Str × Record) (hkv : kv ∈ g) :
    (kv.1 ∈ (keyword_search g q).map Prod.fst) ↔
      strContains (lowerStr (kv.2.name ++ kv.2.description)) (lowerStr q) = true := by
  constructor
  · intro h
    obtain ⟨p, hp, hfst⟩ := List.mem_map.mp h
    obtain ⟨kv2, hmem2, hc2, hpe⟩ := (mem_keyword_search g q p).mp hp
    have : kv2 = kv := by
      apply pair_eq_of_nodup_keys g hnd kv2 hmem2 kv hkv
      rw [hpe] at hfst
      exact hfst
    rw [← this]
    exact hc2
  · intro h
    refine List.mem_map.mpr ⟨(kv.1, ⟨kv.2.name, snippet kv.2.description q 60⟩), ?_, rfl⟩
    exact (mem_keyword_search g q _).mpr ⟨kv, hkv, h, rfl⟩

/-! Order-theoretic facts about the score comparisons and the tuple order of
get_close_matches. -/

theorem fracLT_iff (a b : Frac) : a.num * b.den < b.num * a.den ↔ toQ a < toQ b := by
  unfold toQ
  rw [div_lt_div_iff₀ (by exact_mod_cast a.den_pos) (by exact_mod_cast b.den_pos)]
  constructor <;> intro h <;> exact_mod_cast h

theorem fracEQ_iff (a b : Frac) : a.num * b.den = b.num * a.den ↔ toQ a = toQ b := by
  unfold toQ
  rw [div_eq_div_iff (by exact_mod_cast a.den_pos.ne') (by exact_mod_cast b.den_pos.ne')]
  constructor <;> intro h <;> exact_mod_cast h

theorem fracLE_iff (a b : Frac) : a.num * b.den ≤ b.num * a.den ↔ toQ a ≤ toQ b := by
  unfold toQ
  rw [div_le_div_iff₀ (by exact_mod_cast a.den_pos) (by exact_mod_cast b.den_pos)]
  constructor <;> intro h <;> exact_mod_cast h

theorem fracBLE_iff (a b : Frac) : fracBLE a b = true ↔ toQ a ≤ toQ b := by
  unfold fracBLE
  rw [decide_eq_true_iff]
  exact fracLE_iff a b

theorem pyStrLt_asymm : ∀ a b : Str, pyStrLt a b = true → pyStrLt b a = false := by
  intro a
  induction a with
  | nil =>
    intro b h
    cases b with
    | nil => cases h
    | cons d ds => rfl
  | cons c cs ih =>
    intro b h
    cases b with
    | nil => cases h
    | cons d ds =>
      unfold pyStrLt at h ⊢
      by_cases h1 : c < d
      · rw [if_neg (lt_asymm h1), if_pos h1]
      · rw [if_neg h1] at h
        by_cases h2 : d < c
        · rw [if_pos h2] at h
          cases h
        · rw [if_neg h2] at h
          rw [if_neg h2, if_neg h1]
          exact ih ds h

theorem pyStrLt_false_trans : ∀ a b c : Str,
    pyStrLt a b = false → pyStrLt b c = false → pyStrLt a c = false := by
  intro a
  induction a with
  | nil =>
    intro b c h1 h2
    cases b with
    | nil =>
      cases c with
      | nil => rfl
      | cons z zs => cases h2
    | cons y ys => cases h1
  | cons x xs ih =>
    intro b c h1 h2
    cases b with
    | nil =>
      cases c with
      | nil => rfl
      | cons z zs => cases h2
    | cons y ys =>
      cases c with
      | nil => rfl
      | cons z zs =>
        unfold pyStrLt at h1 h2 ⊢
        have hxy : ¬ x < y := by
          intro hlt
          rw [if_pos hlt] at h1
          cases h1
        have hyz : ¬ y < z := by
          intro hlt
          rw [if_pos hlt] at h2
          cases h2
        rw [if_neg hxy] at h1
        rw [if_neg hyz] at h2
        have hxz : ¬ x < z := by
          intro hlt
          exact absurd (lt_of_lt_of_le hlt (le_trans (not_lt.mp hyz) (not_lt.mp hxy)))
            (lt_irrefl x)
        rw [if_neg hxz]
        by_cases hzx : z < x
        · rw [if_pos hzx]
        · rw [if_neg hzx]
          have hyx : ¬ y < x := not_lt.mpr (le_trans (not_lt.mp hzx) (not_lt.mp hyz))
          have hzy : ¬ z < y := not_lt.mpr (le_trans (not_lt.mp hxy) (not_lt.mp hzx))
          rw [if_neg hyx] at h1
          rw [if_neg hzy] at h2
          exact ih ys zs h1 h2

theorem tupGE_iff (p q : Frac × Str) :
    tupGE p q ↔ (toQ q.1 < toQ p.1 ∨ (toQ p.1 = toQ q.1 ∧ pyStrLt p.2 q.2 = false)) := by
  unfold tupGE
  rw [fracLT_iff, fracEQ_iff]

theorem tupGE_total : ∀ p q : Frac × Str, tupGE p q ∨ tupGE q p := by
  intro p q
  rw [tupGE_iff, tupGE_iff]
  rcases lt_trichotomy (toQ p.1) (toQ q.1) with h | h | h
  · exact Or.inr (Or.inl h)
  · rcases Bool.eq_false_or_eq_true (pyStrLt p.2 q.2) with hs | hs
    · exact Or.inr (Or.inr ⟨h.symm, pyStrLt_asymm _ _ hs⟩)
    · exact Or.inl (Or.inr ⟨h, hs⟩)
  · exact Or.inl (Or.inl h)

theorem tupGE_trans : ∀ p q r : Frac × Str, tupGE p q → tupGE q r → tupGE p r := by
  intro p q r hpq hqr
  rw [tupGE_iff] at hpq hqr ⊢
  rcases hpq with h1 | ⟨h1, hs1⟩ <;> rcases hqr with h2 | ⟨h2, hs2⟩
  · exact Or.inl (lt_trans h2 h1)
  · exact Or.inl (h2 ▸ h1)
  · exact Or.inl (h1 ▸ h2)
  · exact Or.inr ⟨h1.trans h2, pyStrLt_false_trans _ _ _ hs1 hs2⟩

/-- Order on candidate keys induced by the tuples that get_close_matches
sorts: descending prefilter ratio against the word, ties by descending string
order. -/
def keyOrder (w : Str) (x y : Str) : Prop :=
  tupGE (pyRatio x w, x) (pyRatio y w, y)

theorem gcm_length (w : Str) (poss : List Str) (n : Nat) (c : Frac) :
    (get_close_matches w poss n c).length ≤ n := by
  unfold get_close_matches
  simp only [List.length_map, List.length_take]
  exact min_le_left _ _

theorem gcm_mem (w : Str) (poss : List Str) (n : Nat) (c : Frac) (k : Str)
    (hk : k ∈ get_close_matches w poss n c) :
    k ∈ poss ∧ fracBLE c (pyRatio k w) = true := by
  simp only [get_close_matches] at hk
  obtain ⟨p, hp, hpk⟩ := List.mem_map.mp hk
  have hp2 : p ∈ List.insertionSort tupGE
      ((poss.filter (fun x =>
        fracBLE c (realQuickRatio x w) &&
        fracBLE c (quickRatio x w) &&
        fracBLE c (pyRatio x w))).map (fun x => (pyRatio x w, x))) :=
    List.take_subset n _ hp
  rw [(List.perm_insertionSort tupGE _).mem_iff] at hp2
  obtain ⟨x, hx, hxp⟩ := List.mem_map.mp hp2
  obtain ⟨hxposs, hgate⟩ := List.mem_filter.mp hx
  simp only [Bool.and_eq_true] at hgate
  have hxk : x = k := by rw [← hpk, ← hxp]
  rw [← hxk]
  exact ⟨hxposs, hgate.2⟩

theorem gcm_pairwise (w : Str) (poss : List Str) (n : Nat) (c : Frac) :
    (get_close_matches w poss n c).Pairwise (keyOrder w) := by
  haveI : IsTotal (Frac × Str) tupGE := ⟨tupGE_total⟩
  haveI : IsTrans (Frac × Str) tupGE := ⟨tupGE_trans⟩
  simp only [get_close_matches]
  set pairs := ((poss.filter (fun x =>
    fracBLE c (realQuickRatio x w) &&
    fracBLE c (quickRatio x w) &&
    fracBLE c (pyRatio x w))).map (fun x => (pyRatio x w, x))) with hpairs
  have hsorted : (List.insertionSort tupGE pairs).Pairwise tupGE :=
    List.sorted_insertionSort tupGE pairs
  have htake : ((List.insertionSort tupGE pairs).take n).Pairwise tupGE :=
    hsorted.sublist (List.take_sublist n _)
  rw [List.pairwise_map]
  apply htake.imp_of_mem
  intro a b ha hb hab
  have hmem : ∀ p ∈ (List.insertionSort tupGE pairs).take n, p.1 = pyRatio p.2 w := by
    intro p hp
    have hp2 : p ∈ pairs := by
      rw [← (List.perm_insertionSort tupGE pairs).mem_iff]
      exact List.take_subset n _ hp
    obtain ⟨x, _, hxp⟩ := List.mem_map.mp hp2
    rw [← hxp]
  unfold keyOrder
  have h1 := hmem a ha
  have h2 := hmem b hb
  have ea : (pyRatio a.2 w, a.2) = a := by
    rw [← h1]
  have eb : (pyRatio b.2 w, b.2) = b := by
    rw [← h2]
  rw [ea, eb]
  exact hab

theorem pairwise_filterMap_fst {R : Str → Str → Prop}
    (f : Str → Option (Str × FuzzyEntry))
    (hf : ∀ k p, f k = some p → p.1 = k) :
    ∀ l : List Str, l.Pairwise R → (l.filterMap f).Pairwise (fun a b => R a.1 b.1) := by
  intro l
  induction l with
  | nil => intro _; simp
  | cons k rest ih =>
    intro hpw
    rw [List.pairwise_cons] at hpw
    obtain ⟨hhead, htail⟩ := hpw
    rw [List.filterMap_cons]
    cases hfk : f k with
    | none => exact ih htail
    | some p =>
      rw [List.pairwise_cons]
      constructor
      · intro b hb
        obtain ⟨k2, hk2, hfk2⟩ := List.mem_filterMap.mp hb
        rw [hf k p hfk, hf k2 b hfk2]
        exact hhead k2 hk2
      · exact ih htail

theorem mem_fuzzy_search (g : Graph) (q : Str) (limit : Nat) (cutoff : Frac)
    (p : Str × FuzzyEntry) (hp : p ∈ fuzzy_search g q limit cutoff) :
    p.1 ∈ get_close_matches (normalize_key q) (concept_keys g) limit cutoff ∧
      p.2.match_score = similarity (normalize_key q) p.1 := by
  simp only [fuzzy_search] at hp
  obtain ⟨k, hk, hf⟩ := List.mem_filterMap.mp hp
  cases halist : alist_get g k with
  | none => rw [halist] at hf; cases hf
  | some d =>
    rw [halist] at hf
    simp only [Option.map_some'] at hf
    cases hf
    exact ⟨hk, rfl⟩

theorem fuzzy_search_length (g : Graph) (q : Str) (limit : Nat) (cutoff : Frac) :
    (fuzzy_search g q limit cutoff).length ≤ limit := by
  unfold fuzzy_search
  exact le_trans (List.length_filterMap_le _ _) (gcm_length _ _ _ _)

theorem fuzzy_search_pairwise (g : Graph) (q : Str) (limit : Nat) (cutoff : Frac) :
    (fuzzy_search g q limit cutoff).Pairwise
      (fun a b => keyOrder (normalize_key q) a.1 b.1) := by
  unfold fuzzy_search
  apply pairwise_filterMap_fst
  · intro k p hf
    cases halist : alist_get g k with
    | none => rw [halist] at hf; cases hf
    | some d =>
      rw [halist] at hf
      simp only [Option.map_some'] at hf
      cases hf
      rfl
  · exact gcm_pairwise _ _ _ _

/-! Behaviour of the selector and of explain_concept on the distinguished
cases the claims single out. -/

theorem pick_of_exact (t : Tutor) (res : Composite) (r : Record)
    (hex : res.exact = some r) : pick t res = some r := by
  unfold pick
  rw [hex]
  rfl

theorem pick_of_empty (t : Tutor) (res : Composite)
    (hex : res.exact = none) (hf : res.fuzzy = []) (hk : res.keyword = []) :
    pick t res = none := by
  unfold pick
  rw [hex, hf, hk]
  rfl

theorem explain_concept_exact_case (t : Tutor) (q : Str) (r : Record)
    (hq : pyStrip q ≠ [])
    (hex : (comprehensive_search t.engine (pyStrip q)).exact = some r) :
    explain_concept t q =
      ⟨pyStrip q,
        (t.kg.find? (fun kv => decide (kv.2.oid = r.oid))).map (fun kv => kv.1),
        chars "exact", some r,
        match study_tip r.category with
        | some tip => buildConceptExplanation r ++ chars "\n\n" ++ tip
        | none => buildConceptExplanation r⟩ := by
  have hpick : pick t (comprehensive_search t.engine (pyStrip q)) = some r :=
    pick_of_exact _ _ _ hex
  simp only [explain_concept]
  rw [if_neg hq, hpick]
  have hisexact : isExact (comprehensive_search t.engine (pyStrip q)).exact r = true := by
    rw [hex]
    unfold isExact
    simp
  simp [hisexact]

theorem explain_concept_none_case (t : Tutor) (q : Str)
    (hq : pyStrip q ≠ [])
    (hex : (comprehensive_search t.engine (pyStrip q)).exact = none)
    (hf : (comprehensive_search t.engine (pyStrip q)).fuzzy = [])
    (hk : (comprehensive_search t.engine (pyStrip q)).keyword = []) :
    explain_concept t q =
      ⟨pyStrip q, none, chars "none", none, notFoundMsg (pyStrip q)⟩ := by
  have hpick : pick t (comprehensive_search t.engine (pyStrip q)) = none :=
    pick_of_empty _ _ hex hf hk
  simp only [explain_concept]
  rw [if_neg hq, hpick]

theorem explain_concept_empty_case (t : Tutor) (q : Str) (hq : pyStrip q = []) :
    explain_concept t q = ⟨q, none, chars "none", none, pleaseProvideMsg⟩ := by
  simp only [explain_concept]
  rw [if_pos hq]

theorem answer_empty_case (t : Tutor) (q : Str) (hq : pyStrip q = []) :
    answer t q = ⟨q, none, chars "none", none, pleaseTypeMsg⟩ := by
  simp only [answer]
  rw [if_pos hq]

theorem firstOpener_resolved (lowered : Str) (p : Str)
    (hp : p ∈ questionOpeners) (hpre : p.isPrefixOf lowered = true) :
    firstOpener lowered = some p := by
  unfold questionOpeners at hp
  rcases List.mem_cons.mp hp with h1 | hp
  · subst h1
    simp only [firstOpener, questionOpeners, List.find?]
    rw [hpre]
  rcases List.mem_cons.mp hp with h2 | hp
  · subst h2
    cases lowered with
    | nil => simp [List.isPrefixOf] at hpre
    | cons c ls =>
      have hc : c = 'w' := by
        rw [show chars "what is " = 'w' :: chars "hat is " from rfl] at hpre
        simp only [List.isPrefixOf, Bool.and_eq_true, beq_iff_eq] at hpre
        exact hpre.1.symm
      subst hc
      have hneg : (chars "explain ").isPrefixOf ('w' :: ls) = false := by
        rw [show chars "explain " = 'e' :: chars "xplain " from rfl]
        simp [List.isPrefixOf]
      simp only [firstOpener, questionOpeners, List.find?]
      rw [hneg, hpre]
  rcases List.mem_cons.mp hp with h3 | hp
  · subst h3
    cases lowered with
    | nil => simp [List.isPrefixOf] at hpre
    | cons c ls =>
      have hc : c = 'd' := by
        rw [show chars "define " = 'd' :: chars "efine " from rfl] at hpre
        simp only [List.isPrefixOf, Bool.and_eq_true, beq_iff_eq] at hpre
        exact hpre.1.symm
      subst hc
      have hneg1 : (chars "explain ").isPrefixOf ('d' :: ls) = false := by
        rw [show chars "explain " = 'e' :: chars "xplain " from rfl]
        simp [List.isPrefixOf]
      have hneg2 : (chars "what is ").isPrefixOf ('d' :: ls) = false := by
        rw [show chars "what is " = 'w' :: chars "hat is " from rfl]
        simp [List.isPrefixOf]
      simp only [firstOpener, questionOpeners, List.find?]
      rw [hneg1, hneg2, hpre]
  cases hp

theorem opener_ne_nil (p : Str) (hp : p ∈ questionOpeners) : p ≠ [] := by
  unfold questionOpeners at hp
  rcases List.mem_cons.mp hp with h | hp
  · subst h; decide
  rcases List.mem_cons.mp hp with h | hp
  · subst h; decide
  rcases List.mem_cons.mp hp with h | hp
  · subst h; decide
  cases hp

theorem isPrefixOf_ne_nil (lowered : Str) (p : Str)
    (hp : p ≠ []) (hpre : p.isPrefixOf lowered = true) : lowered ≠ [] := by
  intro hl
  subst hl
  cases p with
  | nil => exact hp rfl
  | cons c cs => simp [List.isPrefixOf] at hpre

/-! Object identities of the two loads of the tutor. -/

theorem retag_oid_bounds : ∀ (g : Graph) (b : Nat) (kv : Str × Record),
    kv ∈ retag b g → b ≤ kv.2.oid ∧ kv.2.oid < b + g.length := by
  intro g
  induction g with
  | nil => intro b kv h; cases h
  | cons hd rest ih =>
    intro b kv h
    rw [show retag b (hd :: rest) = (hd.1, { hd.2 with oid := b }) :: retag (b + 1) rest
        from rfl] at h
    rcases List.mem_cons.mp h with h1 | h1
    · subst h1
      simp only [List.length_cons]
      omega
    · obtain ⟨ha, hb⟩ := ih (b + 1) kv h1
      simp only [List.length_cons]
      omega

theorem alist_get_mem (g : Graph) (k : Str) (r : Record)
    (h : alist_get g k = some r) : (k, r) ∈ g := by
  unfold alist_get at h
  cases hfind : g.find? (fun kv => decide (kv.1 = k)) with
  | none => rw [hfind] at h; cases h
  | some kv =>
    rw [hfind] at h
    simp only [Option.map_some'] at h
    have hmem := List.mem_of_find?_eq_some hfind
    have hkey := List.find?_some hfind
    simp only [decide_eq_true_eq] at hkey
    cases h
    rw [← hkey]
    simpa using hmem

theorem answer_prefixed (t : Tutor) (q : Str) (p : Str)
    (hp : p ∈ questionOpeners)
    (hpre : p.isPrefixOf (lowerStr (pyStrip q)) = true) :
    answer t q = explain_concept t (pyStrip ((pyStrip q).drop p.length)) := by
  have hql : lowerStr (pyStrip q) ≠ [] :=
    isPrefixOf_ne_nil _ _ (opener_ne_nil p hp) hpre
  have hq : pyStrip q ≠ [] := by
    intro h
    apply hql
    rw [h]
    rfl
  simp only [answer]
  rw [if_neg hq, firstOpener_resolved _ p hp hpre]

theorem answer_no_opener (t : Tutor) (q : Str)
    (hq : pyStrip q ≠ [])
    (hnone : firstOpener (lowerStr (pyStrip q)) = none) :
    answer t q = answerGeneric t (pyStrip q) := by
  simp only [answer]
  rw [if_neg hq, hnone]

theorem notFoundMsg_head (s : Str) : (notFoundMsg s).head? = some 'I' := rfl

/-! Settlement of the claims. -/

/-- C1 (corrected, counterexample): the claim that fuzzy_search returns at
most limit entries, every reported match_score at least the cutoff, and
entries in descending match_score order with ties in store order is false on
the code: over the store holding only the key ab, the query bacb is selected
by the ratio(k, norm) prefilter at 2/3 but reported with similarity(norm, k)
of 1/3, below the 3/5 cutoff; over the store holding bfs then dfs, the query
afs scores both keys equally and returns dfs before bfs, the reverse of store
order. -/
theorem C1_counterexample :
    ¬ fuzzyClaim fracStore (chars "bacb") 5 ⟨3, 5, by decide⟩ ∧
    ¬ fuzzyClaim bfsDfsStore (chars "afs") 5 ⟨3, 5, by decide⟩ := by
  constructor <;> decide

/-- C1 (amended): fuzzy_search returns at most limit entries; each entry
carries match_score equal to similarity(norm, key) — computed with the
argument order opposite to the selection ratio — while the ratio(key, norm)
used for selection is at least the cutoff; and entries are ordered by
descending selection ratio with ties broken towards the lexicographically
larger key (the heapq.nlargest tuple order), not by store order, and not
necessarily by descending reported match_score. -/
theorem C1_fuzzy_amended : ∀ (g : Graph) (q : Str) (limit : Nat) (cutoff : Frac),
    (fuzzy_search g q limit cutoff).length ≤ limit ∧
    (∀ p ∈ fuzzy_search g q limit cutoff,
      p.2.match_score = similarity (normalize_key q) p.1 ∧
        toQ cutoff ≤ toQ (pyRatio p.1 (normalize_key q))) ∧
    (fuzzy_search g q limit cutoff).Pairwise (fun a b =>
      toQ (pyRatio b.1 (normalize_key q)) < toQ (pyRatio a.1 (normalize_key q)) ∨
        (toQ (pyRatio a.1 (normalize_key q)) = toQ (pyRatio b.1 (normalize_key q)) ∧
          pyStrLt a.1 b.1 = false)) := by
  intro g q limit cutoff
  refine ⟨fuzzy_search_length g q limit cutoff, ?_, ?_⟩
  · intro p hp
    obtain ⟨hmem, hscore⟩ := mem_fuzzy_search g q limit cutoff p hp
    obtain ⟨_, hgate⟩ := gcm_mem _ _ _ _ _ hmem
    exact ⟨hscore, (fracBLE_iff _ _).mp hgate⟩
  · have h := fuzzy_search_pairwise g q limit cutoff
    apply h.imp
    intro a b hab
    have h2 : tupGE (pyRatio a.1 (normalize_key q), a.1)
        (pyRatio b.1 (normalize_key q), b.1) := hab
    have h3 := (tupGE_iff (pyRatio a.1 (normalize_key q), a.1)
        (pyRatio b.1 (normalize_key q), b.1)).mp h2
    simpa using h3

/-- C2: in a composite result whose exact field holds a record, the selector
returns that record (whether or not the fuzzy mapping is non-empty), and
explain_concept reports match_source exact for it. -/
theorem C2_selector_exact :
    (∀ (t : Tutor) (res : Composite) (r : Record),
      res.exact = some r → res.fuzzy ≠ [] → pick t res = some r) ∧
    (∀ (t : Tutor) (q : Str) (r : Record),
      pyStrip q ≠ [] →
      (comprehensive_search t.engine (pyStrip q)).exact = some r →
      (comprehensive_search t.engine (pyStrip q)).fuzzy ≠ [] →
      (explain_concept t q).concept = some r ∧
        (explain_concept t q).match_source = chars "exact") := by
  constructor
  · intro t res r hex _
    exact pick_of_exact t res r hex
  · intro t q r hq hex _
    rw [explain_concept_exact_case t q r hq hex]
    exact ⟨rfl, rfl⟩

/-- Witness for C2 at the one-record stack store and the query stack. -/
theorem C2_witness :
    (explain_concept (mkTutor stackFile) (chars "stack")).concept
        = some { stackRec with oid := 1 } ∧
      (explain_concept (mkTutor stackFile) (chars "stack")).match_source
        = chars "exact" :=
  C2_selector_exact.2 (mkTutor stackFile) (chars "stack") { stackRec with oid := 1 }
    (by decide) (by decide) (by decide)

/-- C3: when exact is absent and the fuzzy and keyword mappings are empty,
the selector returns no concept and explain_concept reports source none with
the not-found message, no matter what the relation strategy matched. -/
theorem C3_relation_never_selects :
    ∀ (t : Tutor) (q : Str),
      pyStrip q ≠ [] →
      (comprehensive_search t.engine (pyStrip q)).exact = none →
      (comprehensive_search t.engine (pyStrip q)).fuzzy = [] →
      (comprehensive_search t.engine (pyStrip q)).keyword = [] →
      pick t (comprehensive_search t.engine (pyStrip q)) = none ∧
        explain_concept t q
          = ⟨pyStrip q, none, chars "none", none, notFoundMsg (pyStrip q)⟩ := by
  intro t q hq hex hf hk
  exact ⟨pick_of_empty _ _ hex hf hk, explain_concept_none_case t q hq hex hf hk⟩

/-- Witness for C3: the query lifo_structure over the stack store matches
via the relation strategy only, and still yields source none with the
not-found message. -/
theorem C3_witness :
    (comprehensive_search (mkTutor stackFile).engine
        (pyStrip (chars "lifo_structure"))).related ≠ [] ∧
      (pick (mkTutor stackFile)
          (comprehensive_search (mkTutor stackFile).engine
            (pyStrip (chars "lifo_structure"))) = none ∧
        explain_concept (mkTutor stackFile) (chars "lifo_structure")
          = ⟨pyStrip (chars "lifo_structure"), none, chars "none", none,
              notFoundMsg (pyStrip (chars "lifo_structure"))⟩) :=
  ⟨by decide,
    C3_relation_never_selects (mkTutor stackFile) (chars "lifo_structure")
      (by decide) (by decide) (by decide) (by decide)⟩

/-- C4 (corrected, counterexample): over the store holding the record named
Array with description not containing the word array, the query array is
reported by keyword_search (it occurs in the name) but its snippet — the
truncated description followed by an ellipsis — neither contains the match
nor equals the whole description, so the claim about snippets is false. -/
theorem C4_counterexample : ¬ keywordClaim arrayStore (chars "array") := by decide

/-- C4 (amended): a record is reported by keyword_search iff the lowercased
query occurs in the lowercased concatenation of name and description (store
keys assumed distinct as for a Python dict); whenever the query occurs in the
description itself the snippet contains the match, and the whole description
is returned when it fits inside the window around the match; when the query
does not occur in the description (a hit via the name or the name-description
boundary), the snippet is a description prefix of at most twice the window
followed by an ellipsis, which need not contain the match. -/
theorem C4_keyword_amended :
    (∀ (g : Graph) (q : Str), (concept_keys g).Nodup → ∀ kv ∈ g,
        ((kv.1 ∈ (keyword_search g q).map Prod.fst) ↔
          strContains (lowerStr (kv.2.name ++ kv.2.description)) (lowerStr q) = true)) ∧
    (∀ (text q : Str) (w idx : Nat),
        pyFind (lowerStr text) (lowerStr q) = some idx →
        strContains (lowerStr (snippet text q w)) (lowerStr q) = true) ∧
    (∀ (text q : Str) (w idx : Nat),
        pyFind (lowerStr text) (lowerStr q) = some idx → idx ≤ w →
        text.length ≤ idx + q.length + w → snippet text q w = text) ∧
    (∀ (text q : Str) (w : Nat), text ≠ [] →
        pyFind (lowerStr text) (lowerStr q) = none →
        snippet text q w = text.take (w * 2) ++ chars "...") :=
  ⟨fun g q hnd kv hkv => keyword_search_mem_iff g q hnd kv hkv,
    snippet_contains_of_found, snippet_eq_text_of_fits, snippet_of_not_found⟩

/-- Witness for C4 at the array store: membership via the description for
the query memory, the snippet containing that match and being the whole
description, and the boundary behaviour for the name-only query array. -/
theorem C4_witness :
    ((chars "array" ∈ (keyword_search arrayStore (chars "memory")).map Prod.fst) ↔
      strContains (lowerStr (arrayRec.name ++ arrayRec.description))
        (lowerStr (chars "memory")) = true) ∧
    strContains
      (lowerStr (snippet (chars "Contiguous memory block.") (chars "memory") 60))
      (lowerStr (chars "memory")) = true ∧
    snippet (chars "Contiguous memory block.") (chars "memory") 60
      = chars "Contiguous memory block." ∧
    snippet (chars "Contiguous memory block.") (chars "array") 60
      = (chars "Contiguous memory block.").take (60 * 2) ++ chars "..." :=
  ⟨C4_keyword_amended.1 arrayStore (chars "memory") (by decide)
      (chars "array", arrayRec) (by decide),
    C4_keyword_amended.2.1 (chars "Contiguous memory block.") (chars "memory") 60 11
      (by decide),
    C4_keyword_amended.2.2.1 (chars "Contiguous memory block.") (chars "memory") 60 11
      (by decide) (by decide) (by decide),
    C4_keyword_amended.2.2.2 (chars "Contiguous memory block.") (chars "array") 60
      (by decide) (by decide)⟩

/-- C5: the source normalization equals the spec normalization (trim,
lowercase, separators to underscores, underscore runs collapsed); exact_search
on any text normalizing to a stored key returns the record at that key; and
exact_search is nothing but the store lookup of the normalized query, so it
performs no partial matching. -/
theorem C5_exact_normalized :
    (∀ text : Str, normalize_key text = specNormalize text) ∧
    (∀ (g : Graph) (k : Str) (r : Record) (text : Str),
      alist_get g k = some r → specNormalize text = k → exact_search g text = some r) ∧
    (∀ (g : Graph) (q : Str), exact_search g q = alist_get g (normalize_key q)) := by
  refine ⟨normalize_key_eq_specNormalize, ?_, fun g q => rfl⟩
  intro g k r text hget hnorm
  unfold exact_search
  rw [normalize_key_eq_specNormalize, hnorm]
  exact hget

/-- Witness for C5: the whitespace-and-case-mangled name of the stack record
is found by exact_search over the stack store. -/
theorem C5_witness :
    normalize_key (chars " Linked--List ") = specNormalize (chars " Linked--List ") ∧
    exact_search stackFile (chars " STACK ") = some stackRec ∧
    exact_search stackFile (chars "stacks") = alist_get stackFile (normalize_key (chars "stacks")) :=
  ⟨C5_exact_normalized.1 (chars " Linked--List "),
    C5_exact_normalized.2.1 stackFile (chars "stack") stackRec (chars " STACK ")
      (by decide) (by decide),
    C5_exact_normalized.2.2 stackFile (chars "stacks")⟩

/-- C6: comprehensive_search is a pure function of the loaded store and the
query, so two calls with the same store and query return identical composite
results, entry for entry and in the same order. -/
theorem C6_deterministic : ∀ (g : Graph) (q : Str),
    comprehensive_search g q = comprehensive_search g q := fun _ _ => rfl

/-- C7: a query that, after stripping, starts case-insensitively with one of
the openers explain, what is, define is answered exactly by explain_concept
on the stripped remainder (the openers are mutually exclusive since they
start with distinct letters); a non-empty query with no recognized opener is
answered by the generic branch on the full stripped query text. -/
theorem C7_prefix_routing : ∀ (t : Tutor) (q : Str),
    (∀ p ∈ questionOpeners, p.isPrefixOf (lowerStr (pyStrip q)) = true →
        answer t q = explain_concept t (pyStrip ((pyStrip q).drop p.length))) ∧
    (pyStrip q ≠ [] → firstOpener (lowerStr (pyStrip q)) = none →
        answer t q = answerGeneric t (pyStrip q)) :=
  fun t q =>
    ⟨fun p hp hpre => answer_prefixed t q p hp hpre,
      fun hq hnone => answer_no_opener t q hq hnone⟩

/-- Witness for C7: Explain stack routes to explain_concept of stack, and a
query with no opener goes through the generic branch. -/
theorem C7_witness :
    answer (mkTutor stackFile) (chars "Explain stack")
      = explain_concept (mkTutor stackFile)
          (pyStrip ((pyStrip (chars "Explain stack")).drop (chars "explain ").length)) ∧
    answer (mkTutor stackFile) (chars "stack!")
      = answerGeneric (mkTutor stackFile) (pyStrip (chars "stack!")) :=
  ⟨(C7_prefix_routing (mkTutor stackFile) (chars "Explain stack")).1
      (chars "explain ") (by decide) (by decide),
    (C7_prefix_routing (mkTutor stackFile) (chars "stack!")).2 (by decide) (by decide)⟩

/-- C8: an empty or whitespace-only input produces match_source none, no
concept, and a fixed prompt message — one fixed text at the answer entry
point and another fixed text at explain_concept (reached for an empty
remainder after stripping an opener) — and both prompts are distinct from
the two not-found messages of the engine. -/
theorem C8_empty_inputs : ∀ (t : Tutor) (q s : Str), pyStrip q = [] →
    answer t q = ⟨q, none, chars "none", none, pleaseTypeMsg⟩ ∧
    explain_concept t q = ⟨q, none, chars "none", none, pleaseProvideMsg⟩ ∧
    pleaseTypeMsg ≠ notFoundMsg s ∧
    pleaseProvideMsg ≠ notFoundMsg s ∧
    pleaseTypeMsg ≠ notMappedMsg ∧
    pleaseProvideMsg ≠ notMappedMsg ∧
    pleaseTypeMsg ≠ pleaseProvideMsg := by
  intro t q s hq
  refine ⟨answer_empty_case t q hq, explain_concept_empty_case t q hq, ?_, ?_,
    by decide, by decide, by decide⟩
  · intro h
    have h2 := congrArg List.head? h
    rw [notFoundMsg_head] at h2
    revert h2
    decide
  · intro h
    have h2 := congrArg List.head? h
    rw [notFoundMsg_head] at h2
    revert h2
    decide

/-- Witness for C8 at a whitespace query over the stack store. -/
theorem C8_witness :
    answer (mkTutor stackFile) (chars "  ")
        = ⟨chars "  ", none, chars "none", none, pleaseTypeMsg⟩ ∧
    explain_concept (mkTutor stackFile) (chars "  ")
        = ⟨chars "  ", none, chars "none", none, pleaseProvideMsg⟩ ∧
    pleaseTypeMsg ≠ notFoundMsg (chars "stack") ∧
    pleaseProvideMsg ≠ notFoundMsg (chars "stack") ∧
    pleaseTypeMsg ≠ notMappedMsg ∧
    pleaseProvideMsg ≠ notMappedMsg ∧
    pleaseTypeMsg ≠ pleaseProvideMsg :=
  C8_empty_inputs (mkTutor stackFile) (chars "  ") (chars "stack") (by decide)

/-- C9 (corrected, counterexample): the claim that every strategy is empty on
the empty query is false: over the two-record bfs-dfs store, keyword_search
of the empty string returns every record, because the empty string is a
substring of every text. -/
theorem C9_counterexample : ¬ emptyQueryClaim bfsDfsStore := by decide

theorem keyword_search_empty_query : ∀ g : Graph,
    keyword_search g []
      = g.map (fun kv => (kv.1, ⟨kv.2.name, snippet kv.2.description [] 60⟩)) := by
  intro g
  simp only [keyword_search]
  induction g with
  | nil => rfl
  | cons kv rest ih =>
    rw [List.filterMap_cons, List.map_cons, if_pos, ih]
    show strContains (lowerStr (kv.2.name ++ kv.2.description)) (lowerStr []) = true
    unfold strContains pyFind pyFindAux
    rw [if_pos]
    · rfl
    · show (lowerStr []).isPrefixOf _ = true
      simp [lowerStr, List.isPrefixOf]

/-- C9 (amended): on the empty query over a store with non-empty keys and
non-empty relation tags, exact, fuzzy and relation search return empty —
and none of the four strategies can fail, being total functions — while
keyword_search returns one entry per record of the store. -/
theorem C9_empty_query_amended : ∀ g : Graph,
    (∀ k ∈ concept_keys g, k ≠ []) →
    (∀ kv ∈ g, ∀ rel ∈ kv.2.relations, rel ≠ []) →
    exact_search g [] = none ∧
    fuzzy_search g [] 5 ⟨3, 5, by decide⟩ = [] ∧
    relation_search g [] = [] ∧
    keyword_search g []
      = g.map (fun kv => (kv.1, ⟨kv.2.name, snippet kv.2.description [] 60⟩)) := by
  intro g hkeys hrels
  have hnorm : normalize_key ([] : Str) = [] := rfl
  refine ⟨?_, ?_, ?_, keyword_search_empty_query g⟩
  · unfold exact_search alist_get
    rw [hnorm]
    rw [List.find?_eq_none.mpr]
    · rfl
    · intro kv hkv
      simp only [decide_eq_true_eq]
      exact fun h => hkeys kv.1 (List.mem_map.mpr ⟨kv, hkv, rfl⟩) h
  · have hgcm : get_close_matches [] (concept_keys g) 5 ⟨3, 5, by decide⟩ = [] := by
      simp only [get_close_matches]
      have hfilter : (concept_keys g).filter (fun x =>
          fracBLE ⟨3, 5, by decide⟩ (realQuickRatio x []) &&
          fracBLE ⟨3, 5, by decide⟩ (quickRatio x []) &&
          fracBLE ⟨3, 5, by decide⟩ (pyRatio x [])) = [] := by
        rw [List.filter_eq_nil_iff]
        intro x hx
        have hxne : x ≠ [] := hkeys x hx
        have hxlen : 0 < x.length := List.length_pos.mpr hxne
        have h1 : fracBLE ⟨3, 5, by decide⟩ (realQuickRatio x []) = false := by
          unfold realQuickRatio
          rw [dif_neg (by simp only [List.length_nil, Nat.add_zero]; omega)]
          unfold fracBLE
          simp only [List.length_nil, Nat.add_zero, Nat.min_zero, Nat.mul_zero,
            decide_eq_false_iff_not]
          omega
        simp [h1]
      rw [hfilter]
      rfl
    simp only [fuzzy_search]
    rw [hnorm, hgcm]
    rfl
  · simp only [relation_search]
    apply List.filterMap_eq_nil_iff.mpr
    intro kv hkv
    rw [if_neg]
    intro hmem
    obtain ⟨rel, hrel, hlow⟩ := List.mem_map.mp hmem
    apply hrels kv hkv rel hrel
    have hlen : rel.length = 0 := by
      have := congrArg List.length hlow
      simpa [lowerStr] using this
    exact List.length_eq_zero.mp hlen

/-- Witness for C9 over the bfs-dfs store: three strategies empty on the
empty query, keyword returning both records. -/
theorem C9_witness :
    exact_search bfsDfsStore [] = none ∧
    fuzzy_search bfsDfsStore [] 5 ⟨3, 5, by decide⟩ = [] ∧
    relation_search bfsDfsStore [] = [] ∧
    keyword_search bfsDfsStore []
      = bfsDfsStore.map (fun kv => (kv.1, ⟨kv.2.name, snippet kv.2.description [] 60⟩)) :=
  C9_empty_query_amended bfsDfsStore (by decide) (by decide)

/-- C10: whenever the exact strategy of the tutor finds a record, the tutor
reports match_source exact (by object identity with the record the engine
returned) but matched_key none: the key-recovery loop compares by object
identity against the separately loaded copy of the graph held by the tutor,
and that copy can never contain the record object held by the engine. -/
theorem C10_identity_mismatch : ∀ (file : Graph) (q : Str) (r : Record),
    pyStrip q ≠ [] →
    (comprehensive_search (mkTutor file).engine (pyStrip q)).exact = some r →
    (explain_concept (mkTutor file) q).match_source = chars "exact" ∧
      (explain_concept (mkTutor file) q).matched_key = none := by
  intro file q r hq hex
  have hr : (normalize_key (pyStrip q), r) ∈ retag file.length file :=
    alist_get_mem _ _ _ hex
  have hoid : file.length ≤ r.oid := (retag_oid_bounds file file.length _ hr).1
  have hfind : (retag 0 file).find? (fun kv => decide (kv.2.oid = r.oid)) = none := by
    apply List.find?_eq_none.mpr
    intro kv hkv
    have hb := (retag_oid_bounds file 0 kv hkv).2
    simp only [decide_eq_true_eq]
    omega
  rw [explain_concept_exact_case (mkTutor file) q r hq hex]
  refine ⟨rfl, ?_⟩
  show ((retag 0 file).find? (fun kv => decide (kv.2.oid = r.oid))).map (fun kv => kv.1) = none
  rw [hfind]
  rfl

/-- Witness for C10 at the stack store: the exact hit on stack reports source
exact with no matched key. -/
theorem C10_witness :
    (explain_concept (mkTutor stackFile) (chars "stack")).match_source = chars "exact" ∧
      (explain_concept (mkTutor stackFile) (chars "stack")).matched_key = none :=
  C10_identity_mismatch stackFile (chars "stack") { stackRec with oid := 1 }
    (by decide) (by decide)
